import Mathlib

/-!
Verification of the two-sum script (src/workspace/two_sum_solution.py).

The script defines three variants of the two-sum problem over a list of
integers nums and an integer target:

* two_sum_brute_force : nested loops over index pairs i < j;
* two_sum_hash_map    : single left-to-right pass keeping a dict from seen
  values to indices (Python dict assignment overwrites existing keys);
* two_sum_two_pointers: builds the list of (value, index) pairs, sorts it
  by value with Python's stable sort, then runs the two-pointer scan.

Each Python function is embedded as a Lean function below.  Python's dict is
modelled as an association list where insertion conses the new binding in
front and List.lookup returns the most recent binding, which realises exactly
the lookup/overwrite semantics of dict assignment.  Python's list.sort with
key x[0] is a stable sort by the first component; a stable sort by a key is a
uniquely determined permutation, so it is modelled by the stable
List.insertionSort on the value component.
-/

namespace TwoSum

/-- Python indexing nums[i].  Every access performed by the embedded
algorithms is in bounds, so the default value is never consulted. -/
def nth (nums : List Int) (i : Nat) : Int := nums.getD i 0

/-- Inner loop of two_sum_brute_force: for j in range(i+1, len(nums)),
return the first j in the given index list with nums[i] + nums[j] == target. -/
def bfInner (nums : List Int) (target : Int) (i : Nat) : List Nat → Option (Nat × Nat)
  | [] => none
  | j :: js =>
    if nth nums i + nth nums j = target then some (i, j) else bfInner nums target i js

/-- Outer loop of two_sum_brute_force: for i in range(len(nums)). -/
def bfOuter (nums : List Int) (target : Int) : List Nat → Option (Nat × Nat)
  | [] => none
  | i :: is =>
    match bfInner nums target i (List.range' (i + 1) (nums.length - (i + 1))) with
    | some p => some p
    | none => bfOuter nums target is

/-- two_sum_brute_force(nums, target): scan pairs i < j in lexicographic
order, return [i, j] on the first hit, [] if the loops complete. -/
def two_sum_brute_force (nums : List Int) (target : Int) : List Nat :=
  match bfOuter nums target (List.range nums.length) with
  | some (i, j) => [i, j]
  | none => []

/-- Loop of two_sum_hash_map: for i, num in enumerate(nums), return
[num_map[complement], i] when complement is a key, otherwise execute
num_map[num] = i (modelled by consing, so lookup sees the newest binding,
as Python dict assignment overwrites). -/
def hmScan (target : Int) : List (Int × Nat) → Nat → List Int → List Nat
  | _, _, [] => []
  | num_map, i, num :: rest =>
    match num_map.lookup (target - num) with
    | some p => [p, i]
    | none => hmScan target ((num, i) :: num_map) (i + 1) rest

/-- two_sum_hash_map(nums, target): single pass with the dict of seen values. -/
def two_sum_hash_map (nums : List Int) (target : Int) : List Nat :=
  hmScan target [] 0 nums

/-- The num_map of two_sum_hash_map at the moment its loop exits (either by
the early return or by falling off the end); same recursion as hmScan. -/
def hmScanMap (target : Int) : List (Int × Nat) → Nat → List Int → List (Int × Nat)
  | num_map, _, [] => num_map
  | num_map, i, num :: rest =>
    match num_map.lookup (target - num) with
    | some _ => num_map
    | none => hmScanMap target ((num, i) :: num_map) (i + 1) rest

/-- Python's enumerate turned into (num, idx) pairs, as the comprehension
[(num, idx) for idx, num in enumerate(nums)] of two_sum_two_pointers. -/
def enumFrom (i : Nat) : List Int → List (Int × Nat)
  | [] => []
  | num :: rest => (num, i) :: enumFrom (i + 1) rest

/-- Comparison used by indexed_nums.sort(key=lambda x: x[0]): order by value. -/
def leVal (a b : Int × Nat) : Prop := a.1 ≤ b.1

instance : DecidableRel leVal := fun a b => inferInstanceAs (Decidable (a.1 ≤ b.1))

instance : IsTotal (Int × Nat) leVal := ⟨fun a b => Int.le_total a.1 b.1⟩

instance : IsTrans (Int × Nat) leVal := ⟨fun _ _ _ h h2 => le_trans h h2⟩

/-- indexed_nums.sort(key=lambda x: x[0]): Python's sort is stable, and a
stable sort by a key is a uniquely determined permutation, so it is modelled
by the stable insertion sort ordered by value. -/
def sortIndexed (l : List (Int × Nat)) : List (Int × Nat) :=
  List.insertionSort leVal l

/-- The while-loop of two_sum_two_pointers over the sorted (value, index)
array: while left < right, compare the value sum at the two cursors with
target, returning original indices on a hit. -/
def tpLoop (arr : List (Int × Nat)) (target : Int) (left right : Nat) : List Nat :=
  if _h : left < right then
    let current_sum := (arr.getD left (0, 0)).1 + (arr.getD right (0, 0)).1
    if current_sum = target then
      [(arr.getD left (0, 0)).2, (arr.getD right (0, 0)).2]
    else if current_sum < target then
      tpLoop arr target (left + 1) right
    else
      tpLoop arr target left (right - 1)
  else []
termination_by right - left
decreasing_by
  · omega
  · omega

unseal tpLoop

/-- two_sum_two_pointers(nums, target): sort the indexed copy by value and
run the two-pointer scan from both ends.  In Python, right starts at
len - 1, which is -1 on the empty list and makes the loop guard false at
once; Nat subtraction gives right = 0 there, with the same (empty) run. -/
def two_sum_two_pointers (nums : List Int) (target : Int) : List Nat :=
  let indexed_nums := sortIndexed (enumFrom 0 nums)
  tpLoop indexed_nums target 0 (indexed_nums.length - 1)

/-- Fuel-indexed version of tpLoop, used to state termination: with fuel
right - left + 1 it completes (never returns none), because each
non-returning iteration strictly decreases right - left. -/
def tpLoopFuel (arr : List (Int × Nat)) (target : Int) : Nat → Nat → Nat → Option (List Nat)
  | 0, _, _ => none
  | fuel + 1, left, right =>
    if left < right then
      let current_sum := (arr.getD left (0, 0)).1 + (arr.getD right (0, 0)).1
      if current_sum = target then
        some [(arr.getD left (0, 0)).2, (arr.getD right (0, 0)).2]
      else if current_sum < target then
        tpLoopFuel arr target fuel (left + 1) right
      else
        tpLoopFuel arr target fuel left (right - 1)
    else some []

/-- A valid answer: two distinct in-range positions, earlier one first,
whose values sum to target. -/
def isValidPair (nums : List Int) (target : Int) (p q : Nat) : Prop :=
  p < q ∧ q < nums.length ∧ nth nums p + nth nums q = target

instance (nums : List Int) (target : Int) (p q : Nat) :
    Decidable (isValidPair nums target p q) :=
  inferInstanceAs (Decidable (_ ∧ _ ∧ _))

/-- Index of the last occurrence of v in the list, offset by i; none when v
does not occur.  Used to describe the overwrite semantics of the dict. -/
def lastIdxFrom (v : Int) : Nat → List Int → Option Nat
  | _, [] => none
  | i, x :: xs =>
    match lastIdxFrom v (i + 1) xs with
    | some j => some j
    | none => if x = v then some i else none

/-- Mutable state visible to two_sum_hash_map: the input list nums and the
local dict num_map.  Used to express that the function writes only num_map. -/
structure HMState where
  nums : List Int
  num_map : List (Int × Nat)

/-- State-passing rendition of the two_sum_hash_map loop: every statement of
the Python body either reads the state or writes the num_map field. -/
def hmScanSt (target : Int) : Nat → List Int → HMState → List Nat × HMState
  | _, [], s => ([], s)
  | i, num :: rest, s =>
    match s.num_map.lookup (target - num) with
    | some p => ([p, i], s)
    | none => hmScanSt target (i + 1) rest { s with num_map := (num, i) :: s.num_map }

/-- two_sum_hash_map run on an explicit state holding the input list. -/
def two_sum_hash_map_run (nums : List Int) (target : Int) : List Nat × HMState :=
  hmScanSt target 0 nums { nums := nums, num_map := [] }

/-- Mutable state visible to two_sum_two_pointers: the input list nums and
the local list indexed_nums, the only object the in-place sort touches. -/
structure TPState where
  nums : List Int
  indexed_nums : List (Int × Nat)

/-- State-passing rendition of two_sum_two_pointers: building indexed_nums
and sorting it in place write only the indexed_nums field. -/
def two_sum_two_pointers_run (nums : List Int) (target : Int) : List Nat × TPState :=
  let s0 : TPState := { nums := nums, indexed_nums := [] }
  let s1 : TPState := { s0 with indexed_nums := enumFrom 0 s0.nums }
  let s2 : TPState := { s1 with indexed_nums := sortIndexed s1.indexed_nums }
  (tpLoop s2.indexed_nums target 0 (s2.indexed_nums.length - 1), s2)

/-! Sanity checks on the four test cases of the script's driver. -/

example : two_sum_brute_force [2, 7, 11, 15] 9 = [0, 1] := by decide
example : two_sum_hash_map [2, 7, 11, 15] 9 = [0, 1] := by decide
example : two_sum_two_pointers [2, 7, 11, 15] 9 = [0, 1] := by decide
example : two_sum_brute_force [3, 2, 4] 6 = [1, 2] := by decide
example : two_sum_hash_map [3, 2, 4] 6 = [1, 2] := by decide
example : two_sum_two_pointers [3, 2, 4] 6 = [1, 2] := by decide
example : two_sum_brute_force [3, 3] 6 = [0, 1] := by decide
example : two_sum_hash_map [3, 3] 6 = [0, 1] := by decide
example : two_sum_two_pointers [3, 3] 6 = [0, 1] := by decide
example : two_sum_brute_force [1, 2, 3, 4] 7 = [2, 3] := by decide
example : two_sum_hash_map [1, 2, 3, 4] 7 = [2, 3] := by decide
example : two_sum_two_pointers [1, 2, 3, 4] 7 = [2, 3] := by decide
example : two_sum_brute_force [] 5 = [] := by decide
example : two_sum_hash_map [7] 5 = [] := by decide
example : two_sum_two_pointers [7] 5 = [] := by decide

/-! Helper lemmas about lookup and drop. -/

lemma lookup_cons_eq (a k : Int) (v : Nat) (m : List (Int × Nat)) :
    List.lookup a ((k, v) :: m) = if a = k then some v else List.lookup a m := by
  by_cases h : a = k
  · subst h; simp [List.lookup_cons]
  · have hb : (a == k) = false := beq_eq_false_iff_ne.mpr h
    simp [List.lookup_cons, hb, h]

lemma lookup_mem {a : Int} {b : Nat} {m : List (Int × Nat)}
    (h : List.lookup a m = some b) : (a, b) ∈ m := by
  induction m with
  | nil => simp [List.lookup] at h
  | cons e es ih =>
    obtain ⟨k, v⟩ := e
    rw [lookup_cons_eq] at h
    by_cases hk : a = k
    · rw [if_pos hk] at h
      obtain rfl := Option.some_injective _ h
      simp [hk]
    · rw [if_neg hk] at h
      exact List.mem_cons_of_mem _ (ih h)

lemma drop_cons {nums : List Int} {i : Nat} {num : Int} {rest : List Int}
    (h : nums.drop i = num :: rest) :
    i < nums.length ∧ nth nums i = num ∧ nums.drop (i + 1) = rest := by
  have hlen : (nums.drop i).length = nums.length - i := List.length_drop i nums
  rw [h] at hlen
  have hi : i < nums.length := by simp at hlen; omega
  refine ⟨hi, ?_, ?_⟩
  · have h0 : nums[i]? = some num := by
      have := List.getElem?_drop nums i 0
      rw [h] at this
      simpa using this.symm
    have h1 : nums[i]? = some nums[i] := List.getElem?_eq_getElem hi
    rw [h1] at h0
    have := Option.some_injective _ h0
    rw [nth, List.getD_eq_getElem _ _ hi, this]
  · have := List.drop_drop 1 i nums
    rw [h] at this
    simpa using this.symm

/-! Analysis of the brute-force double loop. -/

lemma bfInner_none_iff {nums : List Int} {target : Int} {i : Nat} :
    ∀ (k s : Nat), (bfInner nums target i (List.range' s k) = none ↔
      ∀ j, s ≤ j → j < s + k → nth nums i + nth nums j ≠ target) := by
  intro k
  induction k with
  | zero =>
    intro s
    simp only [List.range']
    constructor
    · intro _ j h1 h2
      omega
    · intro _
      simp [bfInner]
  | succ n ih =>
    intro s
    rw [List.range'_succ]
    by_cases hc : nth nums i + nth nums s = target
    · simp only [bfInner, if_pos hc]
      constructor
      · intro h; cases h
      · intro h
        exact absurd hc (h s le_rfl (by omega))
    · simp only [bfInner, if_neg hc]
      rw [ih (s + 1)]
      constructor
      · intro h j h1 h2
        rcases Nat.eq_or_lt_of_le h1 with rfl | h3
        · exact hc
        · exact h j h3 (by omega)
      · intro h j h1 h2
        exact h j (by omega) (by omega)

lemma bfInner_some {nums : List Int} {target : Int} {i : Nat} :
    ∀ (k s : Nat) (p : Nat × Nat), bfInner nums target i (List.range' s k) = some p →
      p.1 = i ∧ s ≤ p.2 ∧ p.2 < s + k ∧ nth nums i + nth nums p.2 = target ∧
      ∀ j, s ≤ j → j < p.2 → nth nums i + nth nums j ≠ target := by
  intro k
  induction k with
  | zero =>
    intro s p h
    simp [List.range', bfInner] at h
  | succ n ih =>
    intro s p h
    rw [List.range'_succ] at h
    by_cases hc : nth nums i + nth nums s = target
    · simp only [bfInner, if_pos hc] at h
      obtain rfl := Option.some_injective _ h.symm
      exact ⟨rfl, le_rfl, by omega, hc, fun j h1 h2 => by omega⟩
    · simp only [bfInner, if_neg hc] at h
      obtain ⟨h1, h2, h3, h4, h5⟩ := ih (s + 1) p h
      refine ⟨h1, by omega, by omega, h4, ?_⟩
      intro j hj1 hj2
      rcases Nat.eq_or_lt_of_le hj1 with rfl | hj3
      · exact hc
      · exact h5 j hj3 hj2

lemma bfOuter_none_iff {nums : List Int} {target : Int} :
    ∀ (k s : Nat), (bfOuter nums target (List.range' s k) = none ↔
      ∀ i, s ≤ i → i < s + k →
        bfInner nums target i (List.range' (i + 1) (nums.length - (i + 1))) = none) := by
  intro k
  induction k with
  | zero =>
    intro s
    simp only [List.range']
    constructor
    · intro _ i h1 h2
      omega
    · intro _
      simp [bfOuter]
  | succ n ih =>
    intro s
    rw [List.range'_succ]
    cases hinner : bfInner nums target s (List.range' (s + 1) (nums.length - (s + 1))) with
    | some q =>
      simp only [bfOuter, hinner]
      constructor
      · intro h; cases h
      · intro h
        rw [h s le_rfl (by omega)] at hinner
        cases hinner
    | none =>
      simp only [bfOuter, hinner]
      rw [ih (s + 1)]
      constructor
      · intro h i h1 h2
        rcases Nat.eq_or_lt_of_le h1 with rfl | h3
        · exact hinner
        · exact h i h3 (by omega)
      · intro h i h1 h2
        exact h i (by omega) (by omega)

lemma bfOuter_some {nums : List Int} {target : Int} :
    ∀ (k s : Nat) (p : Nat × Nat), bfOuter nums target (List.range' s k) = some p →
      s ≤ p.1 ∧ p.1 < s + k ∧
      bfInner nums target p.1 (List.range' (p.1 + 1) (nums.length - (p.1 + 1))) = some p ∧
      ∀ i, s ≤ i → i < p.1 →
        bfInner nums target i (List.range' (i + 1) (nums.length - (i + 1))) = none := by
  intro k
  induction k with
  | zero =>
    intro s p h
    simp [List.range', bfOuter] at h
  | succ n ih =>
    intro s p h
    rw [List.range'_succ] at h
    cases hinner : bfInner nums target s (List.range' (s + 1) (nums.length - (s + 1))) with
    | some q =>
      simp only [bfOuter, hinner] at h
      obtain rfl := Option.some_injective _ h
      have hq1 : q.1 = s := (bfInner_some _ _ q hinner).1
      exact ⟨by omega, by omega, by rw [hq1]; exact hinner, fun i h1 h2 => by omega⟩
    | none =>
      simp only [bfOuter, hinner] at h
      obtain ⟨h1, h2, h3, h4⟩ := ih (s + 1) p h
      refine ⟨by omega, by omega, h3, ?_⟩
      intro i hi1 hi2
      rcases Nat.eq_or_lt_of_le hi1 with rfl | hi3
      · exact hinner
      · exact h4 i hi3 hi2

lemma bf_none_no_pair {nums : List Int} {target : Int}
    (h : bfOuter nums target (List.range nums.length) = none) :
    ∀ p q, ¬ isValidPair nums target p q := by
  intro p q ⟨hpq, hq, hsum⟩
  rw [List.range_eq_range'] at h
  have hinner := (bfOuter_none_iff _ 0).mp h p (by omega) (by omega)
  exact (bfInner_none_iff _ (p + 1)).mp hinner q (by omega) (by omega) hsum

lemma bf_some_spec {nums : List Int} {target : Int} {p : Nat × Nat}
    (h : bfOuter nums target (List.range nums.length) = some p) :
    isValidPair nums target p.1 p.2 ∧
    ∀ a b, isValidPair nums target a b → p.1 < a ∨ (p.1 = a ∧ p.2 ≤ b) := by
  rw [List.range_eq_range'] at h
  obtain ⟨_, hp1, hinner, houter⟩ := bfOuter_some _ 0 p h
  obtain ⟨_, hlo, hhi, hsum, hmin⟩ := bfInner_some _ (p.1 + 1) p hinner
  have hp1len : p.1 < nums.length := by omega
  have hvalid : isValidPair nums target p.1 p.2 := ⟨by omega, by omega, hsum⟩
  refine ⟨hvalid, ?_⟩
  intro a b ⟨hab, hb, habsum⟩
  rcases lt_trichotomy a p.1 with h1 | rfl | h1
  · have hin := houter a (by omega) h1
    exact absurd habsum ((bfInner_none_iff _ (a + 1)).mp hin b (by omega) (by omega))
  · right
    refine ⟨rfl, ?_⟩
    by_contra hcon
    exact hmin b (by omega) (by omega) habsum
  · left; exact h1

lemma bf_result_none {nums : List Int} {target : Int} :
    two_sum_brute_force nums target = [] ↔
      bfOuter nums target (List.range nums.length) = none := by
  cases h : bfOuter nums target (List.range nums.length) with
  | some q => simp [two_sum_brute_force, h]
  | none => simp [two_sum_brute_force, h]

lemma bf_result_pair {nums : List Int} {target : Int} {a b : Nat} :
    two_sum_brute_force nums target = [a, b] ↔
      bfOuter nums target (List.range nums.length) = some (a, b) := by
  cases h : bfOuter nums target (List.range nums.length) with
  | some q => simp [two_sum_brute_force, h, Prod.ext_iff]
  | none => simp [two_sum_brute_force, h]

/-! Analysis of the hash-map scan. -/

/-- Every binding of the dict names an already-processed index carrying the
bound value. -/
def EntriesInv (nums : List Int) (m : List (Int × Nat)) (i : Nat) : Prop :=
  ∀ e ∈ m, e.2 < i ∧ e.2 < nums.length ∧ nth nums e.2 = e.1

/-- The key set of the dict is exactly the set of already-processed values. -/
def KeysInv (nums : List Int) (m : List (Int × Nat)) (i : Nat) : Prop :=
  ∀ v, (∃ b, List.lookup v m = some b) ↔ ∃ p, p < i ∧ nth nums p = v

lemma hmScan_shape (target : Int) :
    ∀ (l : List Int) (m : List (Int × Nat)) (i : Nat),
      hmScan target m i l = [] ∨ ∃ p q, hmScan target m i l = [p, q] := by
  intro l
  induction l with
  | nil => intro m i; left; rfl
  | cons num rest ih =>
    intro m i
    cases hl : List.lookup (target - num) m with
    | some p => right; exact ⟨p, i, by simp [hmScan, hl]⟩
    | none => simpa [hmScan, hl] using ih ((num, i) :: m) (i + 1)

lemma hmScan_sound {nums : List Int} {target : Int} :
    ∀ (l : List Int) (m : List (Int × Nat)) (i : Nat),
      nums.drop i = l → EntriesInv nums m i →
      ∀ p q, hmScan target m i l = [p, q] →
        p < q ∧ q < nums.length ∧ nth nums p + nth nums q = target := by
  intro l
  induction l with
  | nil =>
    intro m i _ _ p q h
    simp [hmScan] at h
  | cons num rest ih =>
    intro m i hdrop hinv p q h
    obtain ⟨hi, hnth, hdrop2⟩ := drop_cons hdrop
    cases hl : List.lookup (target - num) m with
    | some p2 =>
      simp only [hmScan, hl] at h
      obtain ⟨rfl, rfl⟩ : p2 = p ∧ i = q := by simpa using h
      obtain ⟨h1, h2, h3⟩ := hinv _ (lookup_mem hl)
      refine ⟨h1, hi, ?_⟩
      rw [h3, hnth]
      ring
    | none =>
      simp only [hmScan, hl] at h
      refine ih ((num, i) :: m) (i + 1) hdrop2 ?_ p q h
      intro e he
      rcases List.mem_cons.mp he with rfl | he2
      · exact ⟨by omega, hi, hnth⟩
      · obtain ⟨a, b, c⟩ := hinv e he2
        exact ⟨by omega, b, c⟩

lemma hmScan_complete {nums : List Int} {target : Int} :
    ∀ (l : List Int) (m : List (Int × Nat)) (i : Nat),
      nums.drop i = l → KeysInv nums m i →
      hmScan target m i l = [] →
      ∀ q, i ≤ q → q < nums.length → ∀ p, p < q → nth nums p + nth nums q ≠ target := by
  intro l
  induction l with
  | nil =>
    intro m i hdrop _ _ q hq1 hq2 p hp
    have hlen := List.length_drop i nums
    rw [hdrop] at hlen
    simp at hlen
    omega
  | cons num rest ih =>
    intro m i hdrop hkeys h q hq1 hq2 p hp
    obtain ⟨hi, hnth, hdrop2⟩ := drop_cons hdrop
    cases hl : List.lookup (target - num) m with
    | some p2 => simp [hmScan, hl] at h
    | none =>
      simp only [hmScan, hl] at h
      have hkeys2 : KeysInv nums ((num, i) :: m) (i + 1) := by
        intro v
        simp only [lookup_cons_eq]
        by_cases hv : v = num
        · subst hv
          simp only [if_pos rfl]
          constructor
          · intro _
            exact ⟨i, by omega, hnth⟩
          · intro _
            exact ⟨i, rfl⟩
        · simp only [if_neg hv]
          rw [hkeys v]
          constructor
          · rintro ⟨p3, hp3, hnp⟩
            exact ⟨p3, by omega, hnp⟩
          · rintro ⟨p3, hp3, hnp⟩
            refine ⟨p3, ?_, hnp⟩
            rcases Nat.lt_succ_iff_lt_or_eq.mp hp3 with h4 | rfl
            · exact h4
            · exact absurd (hnth.symm.trans hnp).symm hv
      rcases Nat.eq_or_lt_of_le hq1 with rfl | hq3
      · intro hsum
        have hsome : ∃ b, List.lookup (target - num) m = some b := by
          rw [hkeys]
          refine ⟨p, hp, ?_⟩
          rw [hnth] at hsum
          omega
        obtain ⟨b, hb⟩ := hsome
        rw [hl] at hb
        cases hb
      · exact ih ((num, i) :: m) (i + 1) hdrop2 hkeys2 h q hq3 hq2 p hp

lemma hmScan_first {nums : List Int} {target : Int} :
    ∀ (l : List Int) (m : List (Int × Nat)) (i : Nat),
      nums.drop i = l → KeysInv nums m i →
      ∀ p q, hmScan target m i l = [p, q] →
        i ≤ q ∧ (hmScanMap target m i l).lookup (target - nth nums q) = some p ∧
        ∀ r, i ≤ r → r < q → ∀ s, s < r → nth nums s + nth nums r ≠ target := by
  intro l
  induction l with
  | nil =>
    intro m i _ _ p q h
    simp [hmScan] at h
  | cons num rest ih =>
    intro m i hdrop hkeys p q h
    obtain ⟨hi, hnth, hdrop2⟩ := drop_cons hdrop
    cases hl : List.lookup (target - num) m with
    | some p2 =>
      simp only [hmScan, hl] at h
      obtain ⟨rfl, rfl⟩ : p2 = p ∧ i = q := by simpa using h
      refine ⟨le_rfl, ?_, fun r h1 h2 => by omega⟩
      simp only [hmScanMap, hl]
      rw [hnth]
      exact hl
    | none =>
      simp only [hmScan, hl] at h
      have hkeys2 : KeysInv nums ((num, i) :: m) (i + 1) := by
        intro v
        simp only [lookup_cons_eq]
        by_cases hv : v = num
        · subst hv
          simp only [if_pos rfl]
          constructor
          · intro _
            exact ⟨i, by omega, hnth⟩
          · intro _
            exact ⟨i, rfl⟩
        · simp only [if_neg hv]
          rw [hkeys v]
          constructor
          · rintro ⟨p3, hp3, hnp⟩
            exact ⟨p3, by omega, hnp⟩
          · rintro ⟨p3, hp3, hnp⟩
            refine ⟨p3, ?_, hnp⟩
            rcases Nat.lt_succ_iff_lt_or_eq.mp hp3 with h4 | rfl
            · exact h4
            · exact absurd (hnth.symm.trans hnp).symm hv
      obtain ⟨h1, h2, h3⟩ := ih ((num, i) :: m) (i + 1) hdrop2 hkeys2 p q h
      refine ⟨by omega, ?_, ?_⟩
      · simpa only [hmScanMap, hl] using h2
      · intro r hr1 hr2 s hs
        rcases Nat.eq_or_lt_of_le hr1 with rfl | hr3
        · intro hsum
          have hsome : ∃ b, List.lookup (target - num) m = some b := by
            rw [hkeys]
            refine ⟨s, hs, ?_⟩
            rw [hnth] at hsum
            omega
          obtain ⟨b, hb⟩ := hsome
          rw [hl] at hb
          cases hb
        · exact h3 r hr3 hr2 s hs

lemma keysInv_nil (nums : List Int) : KeysInv nums [] 0 := by
  intro v
  constructor
  · rintro ⟨b, hb⟩
    simp [List.lookup] at hb
  · rintro ⟨p, hp, _⟩
    omega

lemma entriesInv_nil (nums : List Int) : EntriesInv nums [] 0 := by
  intro e he
  simp at he

lemma hm_sound_top {nums : List Int} {target : Int} {p q : Nat}
    (h : two_sum_hash_map nums target = [p, q]) :
    p < q ∧ q < nums.length ∧ nth nums p + nth nums q = target :=
  hmScan_sound nums [] 0 (List.drop_zero nums) (entriesInv_nil nums) p q h

lemma hm_complete_top {nums : List Int} {target : Int}
    (h : two_sum_hash_map nums target = []) :
    ∀ p q, ¬ isValidPair nums target p q := by
  intro p q ⟨hpq, hq, hsum⟩
  exact hmScan_complete nums [] 0 (List.drop_zero nums) (keysInv_nil nums) h
    q (by omega) hq p hpq hsum

lemma hm_first_top {nums : List Int} {target : Int} {p q : Nat}
    (h : two_sum_hash_map nums target = [p, q]) :
    (hmScanMap target [] 0 nums).lookup (target - nth nums q) = some p ∧
    ∀ r, r < q → ∀ s, s < r → nth nums s + nth nums r ≠ target := by
  obtain ⟨_, h2, h3⟩ :=
    hmScan_first nums [] 0 (List.drop_zero nums) (keysInv_nil nums) p q h
  exact ⟨h2, fun r hr => h3 r (by omega) hr⟩

lemma hm_shape_top (nums : List Int) (target : Int) :
    two_sum_hash_map nums target = [] ∨
      ∃ p q, two_sum_hash_map nums target = [p, q] :=
  hmScan_shape target nums [] 0

/-! Last-occurrence semantics of the dict built by two_sum_hash_map. -/

lemma lastIdxFrom_none_spec {nums : List Int} :
    ∀ (l : List Int) (i : Nat) (v : Int), nums.drop i = l →
      lastIdxFrom v i l = none →
      ∀ k, i ≤ k → k < nums.length → nth nums k ≠ v := by
  intro l
  induction l with
  | nil =>
    intro i v hdrop _ k hk1 hk2
    have hlen := List.length_drop i nums
    rw [hdrop] at hlen
    simp at hlen
    omega
  | cons x xs ih =>
    intro i v hdrop h k hk1 hk2
    obtain ⟨hi, hnth, hdrop2⟩ := drop_cons hdrop
    cases hin : lastIdxFrom v (i + 1) xs with
    | some j => simp [lastIdxFrom, hin] at h
    | none =>
      simp only [lastIdxFrom, hin] at h
      have hxv : x ≠ v := by
        by_cases hc : x = v
        · rw [if_pos hc] at h
          cases h
        · exact hc
      rcases Nat.eq_or_lt_of_le hk1 with rfl | hk3
      · rw [hnth]
        exact hxv
      · exact ih (i + 1) v hdrop2 hin k hk3 hk2

lemma lastIdxFrom_some_spec {nums : List Int} :
    ∀ (l : List Int) (i : Nat) (v : Int) (j : Nat), nums.drop i = l →
      lastIdxFrom v i l = some j →
      i ≤ j ∧ j < nums.length ∧ nth nums j = v ∧
      ∀ k, j < k → k < nums.length → nth nums k ≠ v := by
  intro l
  induction l with
  | nil =>
    intro i v j _ h
    simp [lastIdxFrom] at h
  | cons x xs ih =>
    intro i v j hdrop h
    obtain ⟨hi, hnth, hdrop2⟩ := drop_cons hdrop
    cases hin : lastIdxFrom v (i + 1) xs with
    | some j2 =>
      simp only [lastIdxFrom, hin] at h
      obtain rfl := Option.some_injective _ h
      obtain ⟨h1, h2, h3, h4⟩ := ih (i + 1) v j2 hdrop2 hin
      exact ⟨by omega, h2, h3, h4⟩
    | none =>
      simp only [lastIdxFrom, hin] at h
      by_cases hc : x = v
      · rw [if_pos hc] at h
        obtain rfl := Option.some_injective _ h
        refine ⟨le_rfl, hi, by rw [hnth, hc], ?_⟩
        intro k hk1 hk2
        exact lastIdxFrom_none_spec xs (i + 1) v hdrop2 hin k (by omega) hk2
      · rw [if_neg hc] at h
        cases h

lemma mem_lastIdxFrom :
    ∀ (l : List Int) (i : Nat) (v : Int), v ∈ l →
      ∃ j, lastIdxFrom v i l = some j := by
  intro l
  induction l with
  | nil =>
    intro i v hv
    simp at hv
  | cons x xs ih =>
    intro i v hv
    rcases List.mem_cons.mp hv with rfl | hv2
    · cases hin : lastIdxFrom v (i + 1) xs with
      | some j => exact ⟨j, by simp [lastIdxFrom, hin]⟩
      | none => exact ⟨i, by simp [lastIdxFrom, hin]⟩
    · obtain ⟨j, hj⟩ := ih (i + 1) v hv2
      exact ⟨j, by simp [lastIdxFrom, hj]⟩

lemma hmScanMap_last {target : Int} :
    ∀ (l : List Int) (m : List (Int × Nat)) (i : Nat),
      hmScan target m i l = [] →
      ∀ v, (hmScanMap target m i l).lookup v =
        match lastIdxFrom v i l with
        | some j => some j
        | none => List.lookup v m := by
  intro l
  induction l with
  | nil =>
    intro m i _ v
    simp [hmScanMap, lastIdxFrom]
  | cons num rest ih =>
    intro m i h v
    cases hl : List.lookup (target - num) m with
    | some p2 => simp [hmScan, hl] at h
    | none =>
      simp only [hmScan, hl] at h
      simp only [hmScanMap, hl]
      rw [ih ((num, i) :: m) (i + 1) h v]
      cases hlast : lastIdxFrom v (i + 1) rest with
      | some j => simp [lastIdxFrom, hlast]
      | none =>
        simp only [lastIdxFrom, hlast]
        rw [lookup_cons_eq]
        by_cases hv : v = num
        · rw [if_pos hv, if_pos hv.symm]
        · rw [if_neg hv, if_neg (fun hc => hv hc.symm)]

/-! State threading of the hash-map variant: only num_map is written. -/

lemma hmScanSt_spec (target : Int) :
    ∀ (l : List Int) (i : Nat) (s : HMState),
      (hmScanSt target i l s).2.nums = s.nums ∧
      (hmScanSt target i l s).1 = hmScan target s.num_map i l := by
  intro l
  induction l with
  | nil =>
    intro i s
    exact ⟨rfl, rfl⟩
  | cons num rest ih =>
    intro i s
    cases hl : List.lookup (target - num) s.num_map with
    | some p => constructor <;> simp [hmScanSt, hmScan, hl]
    | none =>
      have := ih (i + 1) { s with num_map := (num, i) :: s.num_map }
      constructor <;> simp only [hmScanSt, hmScan, hl] <;> simp [this.1, this.2]

/-! Analysis of the indexed copy and its sort. -/

lemma length_enumFrom : ∀ (l : List Int) (i : Nat), (enumFrom i l).length = l.length := by
  intro l
  induction l with
  | nil => intro i; rfl
  | cons x xs ih => intro i; simp [enumFrom, ih]

lemma mem_enumFrom {nums : List Int} :
    ∀ (l : List Int) (i : Nat), nums.drop i = l →
      ∀ e, e ∈ enumFrom i l → e.2 < nums.length ∧ nth nums e.2 = e.1 := by
  intro l
  induction l with
  | nil =>
    intro i _ e he
    simp [enumFrom] at he
  | cons x xs ih =>
    intro i hdrop e he
    obtain ⟨hi, hnth, hdrop2⟩ := drop_cons hdrop
    rcases List.mem_cons.mp he with rfl | he2
    · exact ⟨hi, hnth⟩
    · exact ih (i + 1) hdrop2 e he2

lemma idx_mem_enumFrom {nums : List Int} :
    ∀ (l : List Int) (i : Nat), nums.drop i = l →
      ∀ q, i ≤ q → q < nums.length → (nth nums q, q) ∈ enumFrom i l := by
  intro l
  induction l with
  | nil =>
    intro i hdrop q h1 h2
    have hlen := List.length_drop i nums
    rw [hdrop] at hlen
    simp at hlen
    omega
  | cons x xs ih =>
    intro i hdrop q h1 h2
    obtain ⟨hi, hnth, hdrop2⟩ := drop_cons hdrop
    rcases Nat.eq_or_lt_of_le h1 with rfl | h3
    · rw [hnth]
      exact List.mem_cons_self _ _
    · exact List.mem_cons_of_mem _ (ih (i + 1) hdrop2 q h3 h2)

lemma map_snd_enumFrom : ∀ (l : List Int) (i : Nat),
    (enumFrom i l).map Prod.snd = List.range' i l.length := by
  intro l
  induction l with
  | nil => intro i; rfl
  | cons x xs ih => intro i; simp [enumFrom, List.range'_succ, ih]

lemma sorted_arr (nums : List Int) :
    List.Sorted leVal (sortIndexed (enumFrom 0 nums)) :=
  List.sorted_insertionSort leVal _

lemma perm_arr (nums : List Int) :
    (sortIndexed (enumFrom 0 nums)).Perm (enumFrom 0 nums) :=
  List.perm_insertionSort leVal _

lemma length_arr (nums : List Int) :
    (sortIndexed (enumFrom 0 nums)).length = nums.length := by
  rw [(perm_arr nums).length_eq, length_enumFrom]

lemma arr_entries {nums : List Int} :
    ∀ e ∈ sortIndexed (enumFrom 0 nums), e.2 < nums.length ∧ nth nums e.2 = e.1 :=
  fun e he =>
    mem_enumFrom nums 0 (List.drop_zero nums) e ((perm_arr nums).mem_iff.mp he)

lemma arr_snd_nodup (nums : List Int) :
    ((sortIndexed (enumFrom 0 nums)).map Prod.snd).Nodup := by
  have hperm := (perm_arr nums).map Prod.snd
  rw [hperm.nodup_iff, map_snd_enumFrom, ← List.range_eq_range']
  exact List.nodup_range _

lemma arr_idx_mem {nums : List Int} {q : Nat} (hq : q < nums.length) :
    (nth nums q, q) ∈ sortIndexed (enumFrom 0 nums) :=
  (perm_arr nums).mem_iff.mpr
    (idx_mem_enumFrom nums 0 (List.drop_zero nums) q (by omega) hq)

/-! Analysis of the two-pointer loop. -/

lemma tpLoop_shape {arr : List (Int × Nat)} {target : Int} :
    ∀ (n left right : Nat), right - left ≤ n →
      tpLoop arr target left right = [] ∨
        ∃ a b, tpLoop arr target left right = [a, b] := by
  intro n
  induction n with
  | zero =>
    intro left right hn
    rw [tpLoop, dif_neg (by omega)]
    left; rfl
  | succ n ih =>
    intro left right hn
    rw [tpLoop]
    by_cases hlr : left < right
    · rw [dif_pos hlr]
      by_cases hc : (arr.getD left (0, 0)).1 + (arr.getD right (0, 0)).1 = target
      · rw [if_pos hc]
        right
        exact ⟨_, _, rfl⟩
      · rw [if_neg hc]
        by_cases hc2 : (arr.getD left (0, 0)).1 + (arr.getD right (0, 0)).1 < target
        · rw [if_pos hc2]
          exact ih (left + 1) right (by omega)
        · rw [if_neg hc2]
          exact ih left (right - 1) (by omega)
    · rw [dif_neg hlr]
      left; rfl

lemma tpLoop_sound {arr : List (Int × Nat)} {target : Int} :
    ∀ (n left right : Nat), right - left ≤ n →
      ∀ a b, tpLoop arr target left right = [a, b] →
        ∃ u v, left ≤ u ∧ u < v ∧ v ≤ right ∧
          a = (arr.getD u (0, 0)).2 ∧ b = (arr.getD v (0, 0)).2 ∧
          (arr.getD u (0, 0)).1 + (arr.getD v (0, 0)).1 = target := by
  intro n
  induction n with
  | zero =>
    intro left right hn a b h
    rw [tpLoop, dif_neg (by omega)] at h
    cases h
  | succ n ih =>
    intro left right hn a b h
    rw [tpLoop] at h
    by_cases hlr : left < right
    · rw [dif_pos hlr] at h
      by_cases hc : (arr.getD left (0, 0)).1 + (arr.getD right (0, 0)).1 = target
      · rw [if_pos hc] at h
        obtain ⟨rfl, rfl⟩ :
            (arr.getD left (0, 0)).2 = a ∧ (arr.getD right (0, 0)).2 = b := by
          simpa using h
        exact ⟨left, right, le_rfl, hlr, le_rfl, rfl, rfl, hc⟩
      · rw [if_neg hc] at h
        by_cases hc2 : (arr.getD left (0, 0)).1 + (arr.getD right (0, 0)).1 < target
        · rw [if_pos hc2] at h
          obtain ⟨u, v, h1, h2, h3, h4, h5, h6⟩ := ih (left + 1) right (by omega) a b h
          exact ⟨u, v, by omega, h2, h3, h4, h5, h6⟩
        · rw [if_neg hc2] at h
          obtain ⟨u, v, h1, h2, h3, h4, h5, h6⟩ := ih left (right - 1) (by omega) a b h
          exact ⟨u, v, h1, h2, by omega, h4, h5, h6⟩
    · rw [dif_neg hlr] at h
      cases h

lemma tpLoop_complete {arr : List (Int × Nat)} {target : Int}
    (hsorted : List.Sorted leVal arr) :
    ∀ (n left right : Nat), right - left ≤ n → right < arr.length →
      tpLoop arr target left right = [] →
      ∀ u v, left ≤ u → u < v → v ≤ right →
        (arr.getD u (0, 0)).1 + (arr.getD v (0, 0)).1 ≠ target := by
  have hpair : ∀ x y, x < y → y < arr.length →
      (arr.getD x (0, 0)).1 ≤ (arr.getD y (0, 0)).1 := by
    intro x y hxy hy
    have hx : x < arr.length := by omega
    have hxy2 := List.pairwise_iff_getElem.mp hsorted x y hx hy hxy
    rw [List.getD_eq_getElem _ _ hx, List.getD_eq_getElem _ _ hy]
    exact hxy2
  intro n
  induction n with
  | zero =>
    intro left right hn _ _ u v h1 h2 h3
    omega
  | succ n ih =>
    intro left right hn hr h u v h1 h2 h3
    rw [tpLoop] at h
    by_cases hlr : left < right
    · rw [dif_pos hlr] at h
      by_cases hc : (arr.getD left (0, 0)).1 + (arr.getD right (0, 0)).1 = target
      · rw [if_pos hc] at h
        cases h
      · rw [if_neg hc] at h
        by_cases hc2 : (arr.getD left (0, 0)).1 + (arr.getD right (0, 0)).1 < target
        · rw [if_pos hc2] at h
          rcases Nat.eq_or_lt_of_le h1 with rfl | h4
          · intro hsum
            have hvr : (arr.getD v (0, 0)).1 ≤ (arr.getD right (0, 0)).1 := by
              rcases Nat.eq_or_lt_of_le h3 with rfl | h5
              · exact le_rfl
              · exact hpair v right h5 hr
            omega
          · exact ih (left + 1) right (by omega) hr h u v (by omega) h2 h3
        · rw [if_neg hc2] at h
          rcases Nat.eq_or_lt_of_le h3 with rfl | h5
          · intro hsum
            have hul : (arr.getD left (0, 0)).1 ≤ (arr.getD u (0, 0)).1 := by
              rcases Nat.eq_or_lt_of_le h1 with rfl | h6
              · exact le_rfl
              · exact hpair left u h6 (by omega)
            omega
          · exact ih left (right - 1) (by omega) (by omega) h u v h1 h2 (by omega)
    · rw [dif_neg hlr] at h
      omega

lemma tp_sound_top {nums : List Int} {target : Int} {a b : Nat}
    (h : two_sum_two_pointers nums target = [a, b]) :
    a ≠ b ∧ a < nums.length ∧ b < nums.length ∧ nth nums a + nth nums b = target := by
  have h2 : tpLoop (sortIndexed (enumFrom 0 nums)) target 0
      ((sortIndexed (enumFrom 0 nums)).length - 1) = [a, b] := h
  obtain ⟨u, v, h1, huv, h3, h4, h5, h6⟩ :=
    tpLoop_sound ((sortIndexed (enumFrom 0 nums)).length - 1) 0
      ((sortIndexed (enumFrom 0 nums)).length - 1) (by omega) a b h2
  have hv : v < (sortIndexed (enumFrom 0 nums)).length := by omega
  have hu : u < (sortIndexed (enumFrom 0 nums)).length := by omega
  have hmu : (sortIndexed (enumFrom 0 nums)).getD u (0, 0) ∈ sortIndexed (enumFrom 0 nums) := by
    rw [List.getD_eq_getElem _ _ hu]
    exact List.getElem_mem _
  have hmv : (sortIndexed (enumFrom 0 nums)).getD v (0, 0) ∈ sortIndexed (enumFrom 0 nums) := by
    rw [List.getD_eq_getElem _ _ hv]
    exact List.getElem_mem _
  obtain ⟨hua, hunth⟩ := arr_entries _ hmu
  obtain ⟨hvb, hvnth⟩ := arr_entries _ hmv
  subst h4
  subst h5
  refine ⟨?_, hua, hvb, by rw [hunth, hvnth]; exact h6⟩
  intro hab
  rw [List.getD_eq_getElem _ _ hu, List.getD_eq_getElem _ _ hv] at hab
  have hlen2 : u < ((sortIndexed (enumFrom 0 nums)).map Prod.snd).length := by
    simpa using hu
  have hlen3 : v < ((sortIndexed (enumFrom 0 nums)).map Prod.snd).length := by
    simpa using hv
  have hmape : ((sortIndexed (enumFrom 0 nums)).map Prod.snd).get ⟨u, hlen2⟩ =
      ((sortIndexed (enumFrom 0 nums)).map Prod.snd).get ⟨v, hlen3⟩ := by
    simp only [List.get_eq_getElem, List.getElem_map]
    exact hab
  have := (List.Nodup.getElem_inj_iff (arr_snd_nodup nums)).mp hmape
  omega

lemma tp_complete_top {nums : List Int} {target : Int}
    (h : two_sum_two_pointers nums target = []) :
    ∀ p q, ¬ isValidPair nums target p q := by
  intro p q ⟨hpq, hq, hsum⟩
  have hlen : (sortIndexed (enumFrom 0 nums)).length = nums.length := length_arr nums
  have hp1 : (nth nums p, p) ∈ sortIndexed (enumFrom 0 nums) := arr_idx_mem (by omega)
  have hq1 : (nth nums q, q) ∈ sortIndexed (enumFrom 0 nums) := arr_idx_mem hq
  obtain ⟨up, hup, hgp⟩ := List.mem_iff_getElem.mp hp1
  obtain ⟨uq, huq, hgq⟩ := List.mem_iff_getElem.mp hq1
  have hne : up ≠ uq := by
    intro he
    subst he
    rw [hgp] at hgq
    have := congrArg Prod.snd hgq
    simp at this
    omega
  have h2 : tpLoop (sortIndexed (enumFrom 0 nums)) target 0
      ((sortIndexed (enumFrom 0 nums)).length - 1) = [] := h
  have hcomp := tpLoop_complete (sorted_arr nums)
    ((sortIndexed (enumFrom 0 nums)).length - 1) 0
    ((sortIndexed (enumFrom 0 nums)).length - 1) (by omega) (by omega) h2
  rcases lt_or_gt_of_ne hne with hlt | hgt
  · apply hcomp up uq (by omega) hlt (by omega)
    rw [List.getD_eq_getElem _ _ hup, List.getD_eq_getElem _ _ huq, hgp, hgq]
    exact hsum
  · apply hcomp uq up (by omega) hgt (by omega)
    rw [List.getD_eq_getElem _ _ huq, List.getD_eq_getElem _ _ hup, hgp, hgq]
    omega

lemma tp_shape_top (nums : List Int) (target : Int) :
    two_sum_two_pointers nums target = [] ∨
      ∃ a b, two_sum_two_pointers nums target = [a, b] :=
  tpLoop_shape ((sortIndexed (enumFrom 0 nums)).length - 1) 0
    ((sortIndexed (enumFrom 0 nums)).length - 1) (by omega)

lemma tpLoopFuel_spec {arr : List (Int × Nat)} {target : Int} :
    ∀ (fuel left right : Nat), right - left < fuel →
      tpLoopFuel arr target fuel left right = some (tpLoop arr target left right) := by
  intro fuel
  induction fuel with
  | zero =>
    intro left right h
    omega
  | succ n ih =>
    intro left right h
    rw [tpLoop]
    by_cases hlr : left < right
    · rw [dif_pos hlr]
      simp only [tpLoopFuel]
      rw [if_pos hlr]
      by_cases hc : (arr.getD left (0, 0)).1 + (arr.getD right (0, 0)).1 = target
      · rw [if_pos hc, if_pos hc]
      · rw [if_neg hc, if_neg hc]
        by_cases hc2 : (arr.getD left (0, 0)).1 + (arr.getD right (0, 0)).1 < target
        · rw [if_pos hc2, if_pos hc2]
          exact ih (left + 1) right (by omega)
        · rw [if_neg hc2, if_neg hc2]
          exact ih left (right - 1) (by omega)
    · rw [dif_neg hlr]
      simp only [tpLoopFuel]
      rw [if_neg hlr]

/-! The claims. -/

/-- C1: soundness of every variant.  If two_sum_brute_force, two_sum_hash_map
or two_sum_two_pointers returns a non-empty result [i, j], then i and j are
distinct valid zero-based positions of the original (unsorted) input list and
nums[i] + nums[j] = target. -/
theorem soundness_all_variants (nums : List Int) (target : Int) (i j : Nat) :
    (two_sum_brute_force nums target = [i, j] →
      i ≠ j ∧ i < nums.length ∧ j < nums.length ∧ nth nums i + nth nums j = target) ∧
    (two_sum_hash_map nums target = [i, j] →
      i ≠ j ∧ i < nums.length ∧ j < nums.length ∧ nth nums i + nth nums j = target) ∧
    (two_sum_two_pointers nums target = [i, j] →
      i ≠ j ∧ i < nums.length ∧ j < nums.length ∧ nth nums i + nth nums j = target) := by
  refine ⟨?_, ?_, ?_⟩
  · intro h
    obtain ⟨⟨hij, hj, hsum⟩, _⟩ := bf_some_spec (bf_result_pair.mp h)
    exact ⟨by omega, by omega, hj, hsum⟩
  · intro h
    obtain ⟨hij, hj, hsum⟩ := hm_sound_top h
    exact ⟨by omega, by omega, hj, hsum⟩
  · intro h
    exact tp_sound_top h

/-- C1 witness at nums = [2, 7, 11, 15], target = 9, result [0, 1]. -/
theorem soundness_all_variants_witness :
    (0 : Nat) ≠ 1 ∧ 0 < ([2, 7, 11, 15] : List Int).length ∧
      1 < ([2, 7, 11, 15] : List Int).length ∧
      nth [2, 7, 11, 15] 0 + nth [2, 7, 11, 15] 1 = 9 :=
  (soundness_all_variants [2, 7, 11, 15] 9 0 1).1 (by decide)

/-- C2: completeness of every variant.  If a variant returns the empty
marker, no pair of distinct in-range positions sums to target; in
particular, a list of length 0 or 1 yields the empty marker from all
three variants. -/
theorem completeness_all_variants (nums : List Int) (target : Int) :
    (two_sum_brute_force nums target = [] → ∀ p q, p ≠ q → p < nums.length →
      q < nums.length → nth nums p + nth nums q ≠ target) ∧
    (two_sum_hash_map nums target = [] → ∀ p q, p ≠ q → p < nums.length →
      q < nums.length → nth nums p + nth nums q ≠ target) ∧
    (two_sum_two_pointers nums target = [] → ∀ p q, p ≠ q → p < nums.length →
      q < nums.length → nth nums p + nth nums q ≠ target) ∧
    (nums.length ≤ 1 → two_sum_brute_force nums target = [] ∧
      two_sum_hash_map nums target = [] ∧ two_sum_two_pointers nums target = []) := by
  have key : (∀ p q, ¬ isValidPair nums target p q) → ∀ p q, p ≠ q →
      p < nums.length → q < nums.length → nth nums p + nth nums q ≠ target := by
    intro hno p q hne hp hq hsum
    rcases lt_or_gt_of_ne hne with hlt | hgt
    · exact hno p q ⟨hlt, hq, hsum⟩
    · exact hno q p ⟨hgt, hp, by omega⟩
  have short : nums.length ≤ 1 → ∀ p q, ¬ isValidPair nums target p q := by
    rintro hlen p q ⟨h1, h2, _⟩
    omega
  refine ⟨?_, ?_, ?_, ?_⟩
  · intro h
    exact key (bf_none_no_pair (bf_result_none.mp h))
  · intro h
    exact key (hm_complete_top h)
  · intro h
    exact key (tp_complete_top h)
  · intro hlen
    refine ⟨?_, ?_, ?_⟩
    · cases hbf : bfOuter nums target (List.range nums.length) with
      | none => exact bf_result_none.mpr hbf
      | some r =>
        exact absurd (bf_some_spec hbf).1 (short hlen r.1 r.2)
    · rcases hm_shape_top nums target with hsh | ⟨x, y, hsh⟩
      · exact hsh
      · obtain ⟨h1, h2, h3⟩ := hm_sound_top hsh
        exact absurd ⟨h1, h2, h3⟩ (short hlen x y)
    · rcases tp_shape_top nums target with hsh | ⟨x, y, hsh⟩
      · exact hsh
      · obtain ⟨h1, h2, h3, h4⟩ := tp_sound_top hsh
        rcases lt_or_gt_of_ne h1 with hlt | hgt
        · exact absurd ⟨hlt, h3, h4⟩ (short hlen x y)
        · exact absurd ⟨hgt, h2, by omega⟩ (short hlen y x)

/-- C2 witness: the singleton list [7] with target 5 yields the empty marker
from all three variants. -/
theorem completeness_all_variants_witness :
    two_sum_brute_force [7] 5 = [] ∧ two_sum_hash_map [7] 5 = [] ∧
      two_sum_two_pointers [7] 5 = [] :=
  (completeness_all_variants [7] 5).2.2.2 (by decide)

/-- C3 counterexample: scanning [5, 5] with target 0 completes with the empty
result, yet the dict at loop exit binds value 5 to index 1, the position of
its second occurrence, not to its first-seen position 0: the assignment
num_map[num] = i of the source overwrites the earlier binding, so the claimed
first-occurrence-wins invariant fails. -/
theorem hash_map_first_occurrence_counterexample :
    two_sum_hash_map [5, 5] 0 = [] ∧
    (hmScanMap 0 [] 0 [5, 5]).lookup 5 = some 1 ∧
    ¬ (hmScanMap 0 [] 0 [5, 5]).lookup 5 = some 0 := by decide

/-- C3 amended: at loop exit after a scan that returned the empty marker,
the dict binds each value occurring in the input to its most-recently-seen
position — a later occurrence of the same value overwrites the earlier
binding (last occurrence wins). -/
theorem hash_map_binds_last_occurrence (nums : List Int) (target : Int)
    (h : two_sum_hash_map nums target = []) :
    ∀ v, v ∈ nums → ∃ j, (hmScanMap target [] 0 nums).lookup v = some j ∧
      j < nums.length ∧ nth nums j = v ∧
      ∀ k, j < k → k < nums.length → nth nums k ≠ v := by
  intro v hv
  obtain ⟨j, hj⟩ := mem_lastIdxFrom nums 0 v hv
  have hlook := hmScanMap_last nums [] 0 h v
  rw [hj] at hlook
  obtain ⟨h1, h2, h3, h4⟩ := lastIdxFrom_some_spec nums 0 v j (List.drop_zero nums) hj
  exact ⟨j, hlook, h2, h3, h4⟩

/-- C3 amended witness at nums = [5, 5], target = 0, value 5. -/
theorem hash_map_binds_last_occurrence_witness :
    ∃ j, (hmScanMap 0 [] 0 [5, 5]).lookup 5 = some j ∧
      j < ([5, 5] : List Int).length ∧ nth [5, 5] j = 5 ∧
      ∀ k, j < k → k < ([5, 5] : List Int).length → nth [5, 5] k ≠ 5 :=
  hash_map_binds_last_occurrence [5, 5] 0 (by decide) 5 (by decide)

/-- C4: when two_sum_hash_map returns [p, q], the first index p is strictly
smaller than the second index q (it names an earlier position of the input),
p is exactly the binding of the complement of nums[q] in the dict at the
moment of the return, and q is the first position whose complement is
present: no earlier position q2 has a partner before it. -/
theorem hash_map_ordered_result (nums : List Int) (target : Int) (p q : Nat)
    (h : two_sum_hash_map nums target = [p, q]) :
    p < q ∧ q < nums.length ∧
      (hmScanMap target [] 0 nums).lookup (target - nth nums q) = some p ∧
      ∀ r, r < q → ∀ s, s < r → nth nums s + nth nums r ≠ target := by
  obtain ⟨h1, h2, _⟩ := hm_sound_top h
  obtain ⟨h3, h4⟩ := hm_first_top h
  exact ⟨h1, h2, h3, h4⟩

/-- C4 witness at nums = [3, 2, 4], target = 6, result [1, 2]. -/
theorem hash_map_ordered_result_witness :
    (1 : Nat) < 2 ∧ 2 < ([3, 2, 4] : List Int).length ∧
      (hmScanMap 6 [] 0 [3, 2, 4]).lookup (6 - nth [3, 2, 4] 2) = some 1 ∧
      ∀ r, r < 2 → ∀ s, s < r → nth [3, 2, 4] s + nth [3, 2, 4] r ≠ 6 :=
  hash_map_ordered_result [3, 2, 4] 6 1 2 (by decide)

/-- C5: cross-variant agreement under a unique solution: when exactly one
pair of distinct positions a < b sums to target, all three variants return a
non-empty result naming that pair, with only the order of the two indices
allowed to differ. -/
theorem unique_pair_agreement (nums : List Int) (target : Int) (a b : Nat)
    (hvalid : isValidPair nums target a b)
    (huniq : ∀ q, q < nums.length → ∀ p, p < q →
      nth nums p + nth nums q = target → p = a ∧ q = b) :
    (two_sum_brute_force nums target = [a, b] ∨
      two_sum_brute_force nums target = [b, a]) ∧
    (two_sum_hash_map nums target = [a, b] ∨
      two_sum_hash_map nums target = [b, a]) ∧
    (two_sum_two_pointers nums target = [a, b] ∨
      two_sum_two_pointers nums target = [b, a]) := by
  refine ⟨?_, ?_, ?_⟩
  · cases hbf : bfOuter nums target (List.range nums.length) with
    | none => exact absurd hvalid (bf_none_no_pair hbf a b)
    | some r =>
      obtain ⟨⟨h1, h2, h3⟩, _⟩ := bf_some_spec hbf
      obtain ⟨ha, hb⟩ := huniq r.2 h2 r.1 h1 h3
      left
      have := bf_result_pair.mpr (show bfOuter nums target (List.range nums.length) =
        some (r.1, r.2) by rw [hbf])
      rw [ha, hb] at this
      exact this
  · rcases hm_shape_top nums target with hsh | ⟨x, y, hsh⟩
    · exact absurd hvalid (hm_complete_top hsh a b)
    · obtain ⟨h1, h2, h3⟩ := hm_sound_top hsh
      obtain ⟨ha, hb⟩ := huniq y h2 x h1 h3
      left
      rw [ha, hb] at hsh
      exact hsh
  · rcases tp_shape_top nums target with hsh | ⟨x, y, hsh⟩
    · exact absurd hvalid (tp_complete_top hsh a b)
    · obtain ⟨h1, h2, h3, h4⟩ := tp_sound_top hsh
      rcases lt_or_gt_of_ne h1 with hlt | hgt
      · obtain ⟨ha, hb⟩ := huniq y h3 x hlt h4
        left
        rw [ha, hb] at hsh
        exact hsh
      · obtain ⟨ha, hb⟩ := huniq x h2 y hgt (by omega)
        right
        rw [ha, hb] at hsh
        exact hsh

/-- C5 witness at nums = [2, 7, 11, 15], target = 9, unique pair (0, 1). -/
theorem unique_pair_agreement_witness :
    (two_sum_brute_force [2, 7, 11, 15] 9 = [0, 1] ∨
      two_sum_brute_force [2, 7, 11, 15] 9 = [1, 0]) ∧
    (two_sum_hash_map [2, 7, 11, 15] 9 = [0, 1] ∨
      two_sum_hash_map [2, 7, 11, 15] 9 = [1, 0]) ∧
    (two_sum_two_pointers [2, 7, 11, 15] 9 = [0, 1] ∨
      two_sum_two_pointers [2, 7, 11, 15] 9 = [1, 0]) :=
  unique_pair_agreement [2, 7, 11, 15] 9 0 1 (by decide) (by decide)

/-- C6: duplicate-value edge case: when some value v occurs at two positions
p < q and target = 2·v, two_sum_hash_map returns a pair of two distinct
positions (the first strictly earlier than the second, so no position is
used twice), and concretely on [3, 3] with target 6 every variant returns
the pair of positions 0 and 1. -/
theorem hash_map_duplicate_values (nums : List Int) (target : Int) (v : Int)
    (p q : Nat) (hpq : p < q) (hq : q < nums.length)
    (hp : nth nums p = v) (hqv : nth nums q = v) (ht : target = 2 * v) :
    (∃ x y, two_sum_hash_map nums target = [x, y] ∧ x < y ∧ x ≠ y ∧
      nth nums x + nth nums y = target) ∧
    two_sum_brute_force [3, 3] 6 = [0, 1] ∧
    two_sum_hash_map [3, 3] 6 = [0, 1] ∧
    two_sum_two_pointers [3, 3] 6 = [0, 1] := by
  refine ⟨?_, by decide, by decide, by decide⟩
  rcases hm_shape_top nums target with hsh | ⟨x, y, hsh⟩
  · exfalso
    exact hm_complete_top hsh p q ⟨hpq, hq, by rw [hp, hqv, ht]; ring⟩
  · obtain ⟨h1, h2, h3⟩ := hm_sound_top hsh
    exact ⟨x, y, hsh, h1, by omega, h3⟩

/-- C6 witness at nums = [3, 3], v = 3, p = 0, q = 1, target = 6. -/
theorem hash_map_duplicate_values_witness :
    (∃ x y, two_sum_hash_map [3, 3] 6 = [x, y] ∧ x < y ∧ x ≠ y ∧
      nth [3, 3] x + nth [3, 3] y = 6) ∧
    two_sum_brute_force [3, 3] 6 = [0, 1] ∧
    two_sum_hash_map [3, 3] 6 = [0, 1] ∧
    two_sum_two_pointers [3, 3] 6 = [0, 1] :=
  hash_map_duplicate_values [3, 3] 6 3 0 1 (by decide) (by decide) (by decide)
    (by decide) (by decide)

/-- C7: on any input admitting a valid pair, two_sum_brute_force returns the
lexicographically least pair (i, j) with i < j and nums[i] + nums[j] =
target: first increasing i, then increasing j. -/
theorem brute_force_lex_least (nums : List Int) (target : Int) (p q : Nat)
    (hvalid : isValidPair nums target p q) :
    ∃ i j, two_sum_brute_force nums target = [i, j] ∧
      isValidPair nums target i j ∧
      ∀ a b, isValidPair nums target a b → i < a ∨ (i = a ∧ j ≤ b) := by
  cases hbf : bfOuter nums target (List.range nums.length) with
  | none => exact absurd hvalid (bf_none_no_pair hbf p q)
  | some r =>
    obtain ⟨hr, hmin⟩ := bf_some_spec hbf
    exact ⟨r.1, r.2, bf_result_pair.mpr (by rw [hbf]), hr, hmin⟩

/-- C7 witness at nums = [1, 2, 3, 4], target = 7: least pair (2, 3). -/
theorem brute_force_lex_least_witness :
    ∃ i j, two_sum_brute_force [1, 2, 3, 4] 7 = [i, j] ∧
      isValidPair [1, 2, 3, 4] 7 i j ∧
      ∀ a b, isValidPair [1, 2, 3, 4] 7 a b → i < a ∨ (i = a ∧ j ≤ b) :=
  brute_force_lex_least [1, 2, 3, 4] 7 2 3 (by decide)

/-- C8: termination of the two-pointer loop: on any cursor window it
finishes within right - left + 1 iterations, because each non-returning
iteration strictly shrinks the window (advance left on a small sum, retreat
right on a large one) and the loop stops when left meets or crosses right;
the other two variants are structural recursions over their index lists and
are total by construction. -/
theorem two_pointer_termination (arr : List (Int × Nat)) (target : Int)
    (left right : Nat) :
    tpLoopFuel arr target (right - left + 1) left right =
      some (tpLoop arr target left right) :=
  tpLoopFuel_spec (right - left + 1) left right (by omega)

/-- C9: purity and non-mutation: running the state-passing renditions of
two_sum_hash_map and two_sum_two_pointers (whose states carry the input list
nums together with the locals the source writes: num_map, indexed_nums)
leaves nums unchanged and produces the same answers as the pure functions,
and calling any variant twice with identical inputs gives identical
results. -/
theorem variants_pure (nums : List Int) (target : Int) :
    (two_sum_hash_map_run nums target).2.nums = nums ∧
    (two_sum_hash_map_run nums target).1 = two_sum_hash_map nums target ∧
    (two_sum_two_pointers_run nums target).2.nums = nums ∧
    (two_sum_two_pointers_run nums target).1 = two_sum_two_pointers nums target ∧
    two_sum_brute_force nums target = two_sum_brute_force nums target ∧
    two_sum_hash_map nums target = two_sum_hash_map nums target ∧
    two_sum_two_pointers nums target = two_sum_two_pointers nums target := by
  obtain ⟨h1, h2⟩ := hmScanSt_spec target nums 0 { nums := nums, num_map := [] }
  exact ⟨h1, h2, rfl, rfl, rfl, rfl, rfl⟩

/-- C10: minimality of the hash map's second index: on any input admitting a
valid pair, two_sum_hash_map returns [p, q] where q is the least in-range
position having an earlier partner summing to target. -/
theorem hash_map_min_second_index (nums : List Int) (target : Int) (p0 q0 : Nat)
    (hvalid : isValidPair nums target p0 q0) :
    ∃ p q, two_sum_hash_map nums target = [p, q] ∧ p < q ∧ q < nums.length ∧
      nth nums p + nth nums q = target ∧
      ∀ q2, q2 < nums.length →
        (∃ p2, p2 < q2 ∧ nth nums p2 + nth nums q2 = target) → q ≤ q2 := by
  rcases hm_shape_top nums target with hsh | ⟨p, q, hsh⟩
  · exact absurd hvalid (hm_complete_top hsh p0 q0)
  · obtain ⟨h1, h2, h3⟩ := hm_sound_top hsh
    obtain ⟨_, h4⟩ := hm_first_top hsh
    refine ⟨p, q, hsh, h1, h2, h3, ?_⟩
    rintro q2 hq2len ⟨p2, hp2, hsum2⟩
    by_contra hcon
    exact h4 q2 (by omega) p2 hp2 hsum2

/-- C10 witness at nums = [3, 2, 4], target = 6: least second index 2. -/
theorem hash_map_min_second_index_witness :
    ∃ p q, two_sum_hash_map [3, 2, 4] 6 = [p, q] ∧ p < q ∧
      q < ([3, 2, 4] : List Int).length ∧
      nth [3, 2, 4] p + nth [3, 2, 4] q = 6 ∧
      ∀ q2, q2 < ([3, 2, 4] : List Int).length →
        (∃ p2, p2 < q2 ∧ nth [3, 2, 4] p2 + nth [3, 2, 4] q2 = 6) → q ≤ q2 :=
  hash_map_min_second_index [3, 2, 4] 6 1 2 (by decide)

end TwoSum
